import Mathlib

/-!
Verification of the Post Service of a full-stack blog application.

The repository exposes CRUD and query operations over a single `Post`
entity backed by a document store, plus a GraphQL query used by the
frontend.  The service operations (`createPost`, `listAllPosts`,
`listPostsByAuthor`, `listPostsByTag`, `getPostById`, `updatePost`,
`deletePost`) are embedded below as pure functions over an explicit
store state; timestamps are passed in explicitly as natural numbers and
generated identifiers are drawn from a counter carried by the store.
The GraphQL `GET_POSTS` query selection set is transcribed directly from
`src/api/graphql/posts.js`.
-/

namespace PostService

/-- A persisted blog post record: generated `id`, required `title`,
optional `author` and `contents`, a list of `tags`, and the two
timestamps maintained by the store. -/
structure Post where
  id : Nat
  title : String
  author : Option String
  contents : Option String
  tags : List String
  createdAt : Nat
  updatedAt : Nat
deriving Repr, DecidableEq

/-- The document store state: the collection of posts in natural storage
order together with the generator for fresh identifiers. -/
structure Store where
  posts : List Post
  nextId : Nat
deriving Repr, DecidableEq

/-- The empty store. -/
def emptyStore : Store := ⟨[], 0⟩

/-- Input object accepted by `createPost`: `title` is required
(modelled as `Option` so that a missing field is representable),
`author`, `contents` and `tags` are optional. -/
structure PostInput where
  title : Option String
  author : Option String
  contents : Option String
  tags : Option (List String)
deriving Repr, DecidableEq

/-- Partial field set accepted by `updatePost`: any subset of `title`,
`author`, `contents`, `tags` may be supplied. -/
structure UpdateInput where
  title : Option String
  author : Option String
  contents : Option String
  tags : Option (List String)
deriving Repr, DecidableEq

/-- A validation failure: the offending field and a human-readable
message naming it. -/
structure ValidationError where
  field : String
  message : String
deriving Repr, DecidableEq

/-- The message carried by the validation error for a missing or empty
title. -/
def titleRequiredMessage : String := "Path title is required."

/-- Outcome of `deletePost`: how many records were removed. -/
structure DeleteResult where
  deletedCount : Nat
deriving Repr, DecidableEq

/-- Checks that the character list `pat` occurs at the start of `l`. -/
def charsStartWith : List Char → List Char → Bool
  | [], _ => true
  | _ :: _, [] => false
  | a :: as, b :: bs => a == b && charsStartWith as bs

/-- Checks that the character list `pat` occurs somewhere inside `l`. -/
def charsContain (pat : List Char) : List Char → Bool
  | [] => pat.isEmpty
  | b :: bs => charsStartWith pat (b :: bs) || charsContain pat bs

/-- Substring test on strings, used to state that an error message
names the offending field. -/
def strContains (s pat : String) : Bool := charsContain pat.data s.data

/-- The freshly built post persisted by a successful `createPost`:
the generated id is the store's counter, both timestamps are the
creation time, and `tags` defaults to the empty list. -/
def freshPost (now : Nat) (input : PostInput) (s : Store) (t : String) : Post :=
  ⟨s.nextId, t, input.author, input.contents, input.tags.getD [], now, now⟩

/-- Modelled from the spec: `createPost(fields)` of `services/posts.js`
(not present under `src/`).  Fails with a `ValidationError` naming
`title` when `title` is missing or empty; otherwise persists a new post
with a generated id and `createdAt = updatedAt = now`, appended to the
store in natural order. -/
def createPost (now : Nat) (input : PostInput) (s : Store) :
    Except ValidationError (Post × Store) :=
  match input.title with
  | none => Except.error ⟨"title", titleRequiredMessage⟩
  | some t =>
      if t = "" then Except.error ⟨"title", titleRequiredMessage⟩
      else
        let p := freshPost now input s t
        Except.ok (p, ⟨s.posts ++ [p], s.nextId + 1⟩)

/-- The store state observed after a call to `createPost`: the new
store on success, the unchanged store on failure (no partial writes). -/
def createPostStore (now : Nat) (input : PostInput) (s : Store) : Store :=
  match createPost now input s with
  | Except.ok (_, s') => s'
  | Except.error _ => s

/-- Modelled from the spec: `getPostById(id)` of `services/posts.js`
(not present under `src/`).  Returns the matching post, or `none` when
no post with that id exists. -/
def getPostById (id : Nat) (s : Store) : Option Post :=
  s.posts.find? (fun p => p.id == id)

/-- Applying a partial update to a post: only the supplied fields are
overwritten, `updatedAt` is refreshed to the time of update, and
`createdAt` and `id` are untouched. -/
def applyUpdate (now : Nat) (u : UpdateInput) (p : Post) : Post :=
  { p with
    title := u.title.getD p.title
    author := match u.author with
      | some a => some a
      | none => p.author
    contents := match u.contents with
      | some c => some c
      | none => p.contents
    tags := u.tags.getD p.tags
    updatedAt := now }

/-- Modelled from the spec: `updatePost(id, fields)` of
`services/posts.js` (not present under `src/`).  Updating the title to
the empty string fails validation; a non-existent id yields an absent
result and leaves the store unchanged; otherwise only the supplied
fields are overwritten and `updatedAt` is refreshed. -/
def updatePost (now : Nat) (id : Nat) (u : UpdateInput) (s : Store) :
    Except ValidationError (Option Post × Store) :=
  if u.title = some "" then Except.error ⟨"title", titleRequiredMessage⟩
  else
    match s.posts.find? (fun q => q.id == id) with
    | none => Except.ok (none, s)
    | some p =>
        Except.ok (some (applyUpdate now u p),
          ⟨s.posts.map (fun q => if q.id == id then applyUpdate now u q else q),
           s.nextId⟩)

/-- The store state observed after a call to `updatePost`: the new
store on success, the unchanged store on a validation failure. -/
def updatePostStore (now : Nat) (id : Nat) (u : UpdateInput) (s : Store) : Store :=
  match updatePost now id u s with
  | Except.ok (_, s') => s'
  | Except.error _ => s

/-- Modelled from the spec: `deletePost(id)` of `services/posts.js`
(not present under `src/`).  Removes the matching record if one exists
and reports how many records were removed (0 or 1); a non-existent id
is not an error. -/
def deletePost (id : Nat) (s : Store) : DeleteResult × Store :=
  match s.posts.find? (fun p => p.id == id) with
  | none => (⟨0⟩, s)
  | some _ => (⟨1⟩, ⟨s.posts.eraseP (fun p => p.id == id), s.nextId⟩)

/-- The sortable timestamp fields of a post. -/
inductive SortField where
  | createdAt
  | updatedAt
deriving Repr, DecidableEq

/-- Sort directions. -/
inductive SortOrder where
  | ascending
  | descending
deriving Repr, DecidableEq

/-- Options accepted by `listAllPosts`. -/
structure ListOptions where
  sortBy : SortField
  sortOrder : SortOrder
deriving Repr, DecidableEq

/-- The default sort options: `createdAt` descending. -/
def defaultOptions : ListOptions := ⟨SortField.createdAt, SortOrder.descending⟩

/-- The sort key selected by a `SortField`. -/
def sortKey (f : SortField) (p : Post) : Nat :=
  match f with
  | SortField.createdAt => p.createdAt
  | SortField.updatedAt => p.updatedAt

/-- The ordering relation induced by the chosen field and direction. -/
def postLE (o : ListOptions) (a b : Post) : Prop :=
  match o.sortOrder with
  | SortOrder.ascending => sortKey o.sortBy a ≤ sortKey o.sortBy b
  | SortOrder.descending => sortKey o.sortBy b ≤ sortKey o.sortBy a

instance postLE.instDecidable (o : ListOptions) : DecidableRel (postLE o) :=
  fun a b =>
    match o with
    | ⟨f, SortOrder.ascending⟩ =>
        inferInstanceAs (Decidable (sortKey f a ≤ sortKey f b))
    | ⟨f, SortOrder.descending⟩ =>
        inferInstanceAs (Decidable (sortKey f b ≤ sortKey f a))

instance postLE.instTotal (o : ListOptions) : IsTotal Post (postLE o) :=
  ⟨fun a b => by
    cases o with
    | mk f ord => cases ord <;> exact Nat.le_total _ _⟩

instance postLE.instTrans (o : ListOptions) : IsTrans Post (postLE o) :=
  ⟨fun a b c ha hb => by
    cases o with
    | mk f ord =>
        cases ord
        · exact Nat.le_trans ha hb
        · exact Nat.le_trans hb ha⟩

/-- Modelled from the spec: the shared `listPosts(query, options)`
helper of `services/posts.js` (not present under `src/`).  Filters the
collection and sorts the result by the chosen field and direction with
a stable sort, so ties are broken by natural storage order. -/
def listPosts (q : Post → Bool) (o : ListOptions) (s : Store) : List Post :=
  List.insertionSort (postLE o) (s.posts.filter q)

/-- Resolution of the optional options argument to its defaults. -/
def resolveOptions : Option ListOptions → ListOptions
  | none => defaultOptions
  | some o => o

/-- Modelled from the spec: `listAllPosts(options?)` of
`services/posts.js` (not present under `src/`). -/
def listAllPosts (o : Option ListOptions) (s : Store) : List Post :=
  listPosts (fun _ => true) (resolveOptions o) s

/-- Modelled from the spec: `listPostsByAuthor(author)` of
`services/posts.js` (not present under `src/`): exact, case-sensitive
match on the `author` field, default sort order. -/
def listPostsByAuthor (a : String) (s : Store) : List Post :=
  listPosts (fun p => p.author == some a) defaultOptions s

/-- Modelled from the spec: `listPostsByTag(tag)` of
`services/posts.js` (not present under `src/`): posts whose `tags`
collection contains the value, default sort order. -/
def listPostsByTag (t : String) (s : Store) : List Post :=
  listPosts (fun p => p.tags.contains t) defaultOptions s

/-- The data invariants of a store: ids are unique and below the
generator counter, titles are non-empty, and `updatedAt ≥ createdAt`
for every persisted post. -/
def WF (s : Store) : Prop :=
  (s.posts.map Post.id).Nodup ∧
  (∀ p ∈ s.posts, p.id < s.nextId) ∧
  (∀ p ∈ s.posts, p.title ≠ "") ∧
  (∀ p ∈ s.posts, p.createdAt ≤ p.updatedAt)

/-- One mutating service call.  The clock hypotheses record that the
store's timestamps never run ahead of the current time. -/
inductive Step : Store → Store → Prop where
  | create (now : Nat) (input : PostInput) (s : Store)
      (hclock : ∀ q ∈ s.posts, q.updatedAt ≤ now) :
      Step s (createPostStore now input s)
  | update (now : Nat) (id : Nat) (u : UpdateInput) (s : Store)
      (hclock : ∀ q ∈ s.posts, q.updatedAt ≤ now) :
      Step s (updatePostStore now id u s)
  | del (id : Nat) (s : Store) : Step s (deletePost id s).2

/-- Store states reachable from the empty store through the service
operations. -/
inductive Reachable : Store → Prop where
  | init : Reachable emptyStore
  | step {s s' : Store} : Reachable s → Step s s' → Reachable s'

end PostService

namespace GraphQLApi

/-- One field selection of a GraphQL query: the field name and the
names of its sub-selections (empty for scalar fields). -/
structure GqlField where
  name : String
  subfields : List String
deriving Repr, DecidableEq

/-- The `GET_POSTS` query of `src/api/graphql/posts.js`: operation
`getPosts($options: PostsOptions)`, root field `posts(options:)`, and
its selection set transcribed field by field. -/
structure GqlQuery where
  operationName : String
  variableName : String
  variableType : String
  rootField : String
  selection : List GqlField
deriving Repr, DecidableEq

/-- The selection set of the `GET_POSTS` query, in source order. -/
def getPostsSelection : List GqlField :=
  [⟨"author", ["username"]⟩,
   ⟨"id", []⟩,
   ⟨"title", []⟩,
   ⟨"contents", []⟩,
   ⟨"tags", []⟩,
   ⟨"updatedAt", []⟩,
   ⟨"createdAt", []⟩]

/-- The `GET_POSTS` query constant exported by
`src/api/graphql/posts.js`. -/
def GET_POSTS : GqlQuery :=
  ⟨"getPosts", "options", "PostsOptions", "posts", getPostsSelection⟩

end GraphQLApi

namespace PostService

/-- Sample post fixture, mirroring the test suite's sample data. -/
def post1 : Post := ⟨0, "Learning Redux", some "Naa Gyamfi", none, ["redux"], 1, 1⟩

/-- Sample post fixture. -/
def post2 : Post := ⟨1, "Learn React Hooks", some "Naa Gyamfi", none, ["react"], 2, 2⟩

/-- Sample post fixture. -/
def post3 : Post :=
  ⟨2, "Full-Stack React Projects", some "Naa Gyamfi", none, ["react", "nodejs"], 3, 3⟩

/-- Sample post fixture with only a title. -/
def post4 : Post := ⟨3, "Guide to TypeScript", none, none, [], 4, 4⟩

/-- A concrete store holding the four sample posts. -/
def sampleStore : Store := ⟨[post1, post2, post3, post4], 4⟩

/-- A create input with no `title`, as in the failing creation test. -/
def inputNoTitle : PostInput :=
  ⟨none, some "John Doe", some "Welcome to my blog", some ["empty"]⟩

/-- A create input with only a title, as in the minimal creation test. -/
def inputMinimal : PostInput := ⟨some "Only a title", none, none, none⟩

/-- An update input supplying only the `author` field. -/
def updateAuthorInput : UpdateInput := ⟨none, some "Test Author", none, none⟩

/-- Claim C1: createPost on an input whose title is missing or empty fails
with a ValidationError whose message names `title`, and the store is
unchanged — in particular its post count. -/
theorem createPost_missing_title (now : Nat) (input : PostInput) (s : Store)
    (h : input.title = none ∨ input.title = some "") :
    (∃ e : ValidationError, createPost now input s = Except.error e ∧
        e.field = "title" ∧ strContains e.message "title" = true) ∧
    createPostStore now input s = s ∧
    (createPostStore now input s).posts.length = s.posts.length := by
  have herr : createPost now input s = Except.error ⟨"title", titleRequiredMessage⟩ := by
    rcases h with h | h
    · simp [createPost, h]
    · simp [createPost, h]
  refine ⟨⟨⟨"title", titleRequiredMessage⟩, herr, rfl, by decide⟩, ?_, ?_⟩
  · simp [createPostStore, herr]
  · simp [createPostStore, herr]

/-- Witness for C1: the concrete no-title input from the tests fails
against the sample store. -/
theorem createPost_missing_title_witness :
    (∃ e : ValidationError, createPost 5 inputNoTitle sampleStore = Except.error e ∧
        e.field = "title" ∧ strContains e.message "title" = true) ∧
    createPostStore 5 inputNoTitle sampleStore = sampleStore ∧
    (createPostStore 5 inputNoTitle sampleStore).posts.length =
      sampleStore.posts.length :=
  createPost_missing_title 5 inputNoTitle sampleStore (Or.inl rfl)

/-- Claim C2: createPost on an input with a non-empty title succeeds and
persists a post carrying a fresh id, `createdAt = updatedAt` equal to
the creation time, and all supplied fields stored unchanged. -/
theorem createPost_valid (now : Nat) (input : PostInput) (s : Store) (t : String)
    (ht : input.title = some t) (hne : t ≠ "")
    (hfresh : ∀ q ∈ s.posts, q.id < s.nextId) :
    ∃ p s', createPost now input s = Except.ok (p, s') ∧
      p.createdAt = now ∧ p.updatedAt = now ∧ p.createdAt = p.updatedAt ∧
      p.title = t ∧ p.author = input.author ∧ p.contents = input.contents ∧
      p.tags = input.tags.getD [] ∧
      (∀ q ∈ s.posts, q.id ≠ p.id) ∧
      s'.posts = s.posts ++ [p] ∧ s'.nextId = s.nextId + 1 := by
  refine ⟨freshPost now input s t,
    ⟨s.posts ++ [freshPost now input s t], s.nextId + 1⟩,
    ?_, rfl, rfl, rfl, rfl, rfl, rfl, rfl, ?_, rfl, rfl⟩
  · simp [createPost, ht, hne]
  · intro q hq
    exact Nat.ne_of_lt (hfresh q hq)

/-- Witness for C2: the concrete minimal input from the tests succeeds
against the sample store. -/
theorem createPost_valid_witness :
    ∃ p s', createPost 5 inputMinimal sampleStore = Except.ok (p, s') ∧
      p.createdAt = 5 ∧ p.updatedAt = 5 ∧ p.createdAt = p.updatedAt ∧
      p.title = "Only a title" ∧ p.author = inputMinimal.author ∧
      p.contents = inputMinimal.contents ∧
      p.tags = inputMinimal.tags.getD [] ∧
      (∀ q ∈ sampleStore.posts, q.id ≠ p.id) ∧
      s'.posts = sampleStore.posts ++ [p] ∧ s'.nextId = sampleStore.nextId + 1 :=
  createPost_valid 5 inputMinimal sampleStore "Only a title" rfl (by decide)
    (by decide)

/-- Sorting by a key leaves posts with equal keys related in both
directions, whatever the direction of the sort. -/
lemma postLE_of_eq_key (o : ListOptions) (a b : Post)
    (hab : sortKey o.sortBy a = sortKey o.sortBy b) : postLE o a b := by
  cases o with
  | mk f ord =>
      cases ord
      · exact Nat.le_of_eq hab
      · exact Nat.le_of_eq hab.symm

/-- Stability of the sort used by the listing operations: filtering the
sorted sequence on a set of mutually related posts gives back exactly
the filtered input, in natural storage order. -/
lemma filter_insertionSort_eq (o : ListOptions) (l : List Post) (q : Post → Bool)
    (hq : ∀ a b, q a = true → q b = true → postLE o a b) :
    (List.insertionSort (postLE o) l).filter q = l.filter q := by
  have hpw : List.Pairwise (postLE o) (l.filter q) :=
    List.pairwise_of_forall_mem_list (fun a ha b hb =>
      hq a b (List.of_mem_filter ha) (List.of_mem_filter hb))
  have hsub : (l.filter q).Sublist (List.insertionSort (postLE o) l) :=
    List.sublist_insertionSort hpw (List.filter_sublist l)
  have hself : (l.filter q).filter q = l.filter q :=
    List.filter_eq_self.mpr (fun a ha => List.of_mem_filter ha)
  have hsub2 : (l.filter q).Sublist ((List.insertionSort (postLE o) l).filter q) := by
    have h := hsub.filter q
    rwa [hself] at h
  have hlen : ((List.insertionSort (postLE o) l).filter q).length = (l.filter q).length :=
    ((List.perm_insertionSort (postLE o) l).filter q).length_eq
  exact (hsub2.eq_of_length hlen.symm).symm

/-- Claim C3: listAllPosts always returns as many posts as the store holds;
with no options it is sorted by `createdAt` descending, with
updatedAt/ascending options it is sorted by `updatedAt` ascending, and
an empty store yields the empty sequence. -/
theorem listAllPosts_sorted (s : Store) :
    (∀ o, (listAllPosts o s).length = s.posts.length) ∧
    List.Pairwise (fun a b => b.createdAt ≤ a.createdAt) (listAllPosts none s) ∧
    List.Pairwise (fun a b => a.updatedAt ≤ b.updatedAt)
      (listAllPosts (some ⟨SortField.updatedAt, SortOrder.ascending⟩) s) ∧
    (s.posts = [] → ∀ o, listAllPosts o s = []) := by
  refine ⟨?_, ?_, ?_, ?_⟩
  · intro o
    rw [listAllPosts, listPosts, List.length_insertionSort, List.filter_true]
  · exact List.Pairwise.imp (fun h => h)
      (List.sorted_insertionSort (postLE defaultOptions)
        (s.posts.filter fun _ => true))
  · exact List.Pairwise.imp (fun h => h)
      (List.sorted_insertionSort (postLE ⟨SortField.updatedAt, SortOrder.ascending⟩)
        (s.posts.filter fun _ => true))
  · intro h o
    simp [listAllPosts, listPosts, h]

/-- Witness for C3: the spec of listAllPosts instantiated at the sample
store. -/
theorem listAllPosts_sorted_witness :
    (∀ o, (listAllPosts o sampleStore).length = sampleStore.posts.length) ∧
    List.Pairwise (fun a b => b.createdAt ≤ a.createdAt)
      (listAllPosts none sampleStore) ∧
    List.Pairwise (fun a b => a.updatedAt ≤ b.updatedAt)
      (listAllPosts (some ⟨SortField.updatedAt, SortOrder.ascending⟩) sampleStore) ∧
    (sampleStore.posts = [] → ∀ o, listAllPosts o sampleStore = []) :=
  listAllPosts_sorted sampleStore

/-- Claim C4: listPostsByAuthor returns exactly the posts whose author equals
the input, listPostsByTag exactly the posts whose tags contain the
input, both sorted in the default order; no match yields the empty
sequence rather than an error. -/
theorem listByAuthorTag (a t : String) (s : Store) :
    (∀ p, p ∈ listPostsByAuthor a s ↔ p ∈ s.posts ∧ p.author = some a) ∧
    (∀ p, p ∈ listPostsByTag t s ↔ p ∈ s.posts ∧ t ∈ p.tags) ∧
    List.Pairwise (fun x y => y.createdAt ≤ x.createdAt) (listPostsByAuthor a s) ∧
    List.Pairwise (fun x y => y.createdAt ≤ x.createdAt) (listPostsByTag t s) ∧
    ((∀ p ∈ s.posts, ¬ p.author = some a) → listPostsByAuthor a s = []) ∧
    ((∀ p ∈ s.posts, t ∉ p.tags) → listPostsByTag t s = []) := by
  refine ⟨?_, ?_, ?_, ?_, ?_, ?_⟩
  · intro p
    rw [listPostsByAuthor, listPosts, List.mem_insertionSort, List.mem_filter]
    simp
  · intro p
    rw [listPostsByTag, listPosts, List.mem_insertionSort, List.mem_filter]
    simp [List.elem_iff]
  · exact List.Pairwise.imp (fun h => h)
      (List.sorted_insertionSort (postLE defaultOptions)
        (s.posts.filter fun p => p.author == some a))
  · exact List.Pairwise.imp (fun h => h)
      (List.sorted_insertionSort (postLE defaultOptions)
        (s.posts.filter fun p => p.tags.contains t))
  · intro h
    have hnil : s.posts.filter (fun p => p.author == some a) = [] := by
      rw [List.filter_eq_nil_iff]
      intro p hp
      simpa using h p hp
    rw [listPostsByAuthor, listPosts, hnil]
    rfl
  · intro h
    have hnil : s.posts.filter (fun p => p.tags.contains t) = [] := by
      rw [List.filter_eq_nil_iff]
      intro p hp
      simpa [List.elem_iff] using h p hp
    rw [listPostsByTag, listPosts, hnil]
    rfl

/-- Witness for C4: the filter spec instantiated at the sample store and
the fixture author and tag. -/
theorem listByAuthorTag_witness :
    (∀ p, p ∈ listPostsByAuthor "Naa Gyamfi" sampleStore ↔
        p ∈ sampleStore.posts ∧ p.author = some "Naa Gyamfi") ∧
    (∀ p, p ∈ listPostsByTag "nodejs" sampleStore ↔
        p ∈ sampleStore.posts ∧ "nodejs" ∈ p.tags) ∧
    List.Pairwise (fun x y => y.createdAt ≤ x.createdAt)
      (listPostsByAuthor "Naa Gyamfi" sampleStore) ∧
    List.Pairwise (fun x y => y.createdAt ≤ x.createdAt)
      (listPostsByTag "nodejs" sampleStore) ∧
    ((∀ p ∈ sampleStore.posts, ¬ p.author = some "Naa Gyamfi") →
      listPostsByAuthor "Naa Gyamfi" sampleStore = []) ∧
    ((∀ p ∈ sampleStore.posts, "nodejs" ∉ p.tags) →
      listPostsByTag "nodejs" sampleStore = []) :=
  listByAuthorTag "Naa Gyamfi" "nodejs" sampleStore

/-- Claim C9: listAllPosts is deterministic — the same options on the same
store give the same sequence — and ties on the sort key keep the
stable natural storage order: filtering the output on any fixed key
value gives back the input order. -/
theorem listAllPosts_deterministic (s : Store) (o : Option ListOptions) (c : Nat) :
    listAllPosts o s = listAllPosts o s ∧
    (listAllPosts o s).filter (fun p => sortKey (resolveOptions o).sortBy p == c) =
      s.posts.filter (fun p => sortKey (resolveOptions o).sortBy p == c) := by
  refine ⟨rfl, ?_⟩
  rw [listAllPosts, listPosts, List.filter_true]
  apply filter_insertionSort_eq
  intro x y hx hy
  have hx' : sortKey (resolveOptions o).sortBy x = c := by simpa using hx
  have hy' : sortKey (resolveOptions o).sortBy y = c := by simpa using hy
  exact postLE_of_eq_key _ x y (hx'.trans hy'.symm)

/-- Witness for C9: determinism and stability at the sample store with the
default options and key value 1. -/
theorem listAllPosts_deterministic_witness :
    listAllPosts none sampleStore = listAllPosts none sampleStore ∧
    (listAllPosts none sampleStore).filter
        (fun p => sortKey (resolveOptions none).sortBy p == 1) =
      sampleStore.posts.filter
        (fun p => sortKey (resolveOptions none).sortBy p == 1) :=
  listAllPosts_deterministic sampleStore none 1

/-- Claim C5: a syntactically valid identifier matching no post yields an
absent result (not an error) consistently for getPostById and
updatePost, and updatePost leaves the store unchanged. -/
theorem notFound_absent (now id : Nat) (u : UpdateInput) (s : Store)
    (h : ∀ p ∈ s.posts, p.id ≠ id) (hv : u.title ≠ some "") :
    getPostById id s = none ∧ updatePost now id u s = Except.ok (none, s) := by
  have hf : s.posts.find? (fun p => p.id == id) = none := by
    rw [List.find?_eq_none]
    intro p hp
    simpa using h p hp
  refine ⟨hf, ?_⟩
  rw [updatePost, if_neg hv, hf]

/-- Witness for C5: the absent id 99 yields absent results on the sample
store. -/
theorem notFound_absent_witness :
    getPostById 99 sampleStore = none ∧
    updatePost 5 99 updateAuthorInput sampleStore =
      Except.ok (none, sampleStore) :=
  notFound_absent 5 99 updateAuthorInput sampleStore (by decide) (by decide)

/-- Updating the store's collection rewrites the post found under a
given id to its updated version, since `applyUpdate` preserves ids. -/
lemma find?_map_applyUpdate (now : Nat) (u : UpdateInput) (id : Nat)
    (l : List Post) (p : Post)
    (hfind : l.find? (fun q => q.id == id) = some p) :
    (l.map (fun q => if q.id == id then applyUpdate now u q else q)).find?
      (fun q => q.id == id) = some (applyUpdate now u p) := by
  induction l with
  | nil => simp at hfind
  | cons a l ih =>
      cases hb : (a.id == id) with
      | true =>
          rw [@List.find?_cons_of_pos _ (fun q => q.id == id) a l hb] at hfind
          have hap : a = p := Option.some.inj hfind
          subst hap
          rw [List.map_cons, if_pos hb]
          exact List.find?_cons_of_pos _ hb
      | false =>
          have hb' : ¬ (a.id == id) = true := by simp [hb]
          rw [@List.find?_cons_of_neg _ (fun q => q.id == id) a l hb'] at hfind
          rw [List.map_cons, if_neg hb']
          rw [@List.find?_cons_of_neg _ (fun q => q.id == id) a
            (List.map (fun q => if q.id == id then applyUpdate now u q else q) l)
            hb']
          exact ih hfind

/-- Claim C6: updatePost on an existing id overwrites exactly the supplied
fields, refreshes `updatedAt` to a value strictly greater than the
prior one when the clock has advanced, leaves `id` and `createdAt`
untouched, persists the returned post, and leaves all other posts in
the store. -/
theorem updatePost_frame (now id : Nat) (u : UpdateInput) (s : Store) (p : Post)
    (hfind : s.posts.find? (fun q => q.id == id) = some p)
    (hv : u.title ≠ some "") (hclock : p.updatedAt < now) :
    ∃ r s', updatePost now id u s = Except.ok (some r, s') ∧
      r.id = p.id ∧ r.createdAt = p.createdAt ∧ r.updatedAt = now ∧
      p.updatedAt < r.updatedAt ∧
      (u.title = none → r.title = p.title) ∧
      (∀ x, u.title = some x → r.title = x) ∧
      (u.author = none → r.author = p.author) ∧
      (∀ x, u.author = some x → r.author = some x) ∧
      (u.contents = none → r.contents = p.contents) ∧
      (∀ x, u.contents = some x → r.contents = some x) ∧
      (u.tags = none → r.tags = p.tags) ∧
      (∀ x, u.tags = some x → r.tags = x) ∧
      getPostById id s' = some r ∧
      s'.nextId = s.nextId ∧
      (∀ q ∈ s.posts, q.id ≠ id → q ∈ s'.posts) := by
  refine ⟨applyUpdate now u p,
    ⟨s.posts.map (fun q => if q.id == id then applyUpdate now u q else q),
     s.nextId⟩,
    ?_, rfl, rfl, rfl, hclock, ?_, ?_, ?_, ?_, ?_, ?_, ?_, ?_, ?_, rfl, ?_⟩
  · rw [updatePost, if_neg hv, hfind]
  · intro hx
    simp [applyUpdate, hx]
  · intro x hx
    simp [applyUpdate, hx]
  · intro hx
    simp [applyUpdate, hx]
  · intro x hx
    simp [applyUpdate, hx]
  · intro hx
    simp [applyUpdate, hx]
  · intro x hx
    simp [applyUpdate, hx]
  · intro hx
    simp [applyUpdate, hx]
  · intro x hx
    simp [applyUpdate, hx]
  · exact find?_map_applyUpdate now u id s.posts p hfind
  · intro q hq hne
    refine List.mem_map.mpr ⟨q, hq, ?_⟩
    simp [hne]

/-- Witness for C6: updating only the author of the first sample post at
time 5. -/
theorem updatePost_frame_witness :
    ∃ r s', updatePost 5 0 updateAuthorInput sampleStore =
        Except.ok (some r, s') ∧
      r.id = post1.id ∧ r.createdAt = post1.createdAt ∧ r.updatedAt = 5 ∧
      post1.updatedAt < r.updatedAt ∧
      (updateAuthorInput.title = none → r.title = post1.title) ∧
      (∀ x, updateAuthorInput.title = some x → r.title = x) ∧
      (updateAuthorInput.author = none → r.author = post1.author) ∧
      (∀ x, updateAuthorInput.author = some x → r.author = some x) ∧
      (updateAuthorInput.contents = none → r.contents = post1.contents) ∧
      (∀ x, updateAuthorInput.contents = some x → r.contents = some x) ∧
      (updateAuthorInput.tags = none → r.tags = post1.tags) ∧
      (∀ x, updateAuthorInput.tags = some x → r.tags = x) ∧
      getPostById 0 s' = some r ∧
      s'.nextId = sampleStore.nextId ∧
      (∀ q ∈ sampleStore.posts, q.id ≠ 0 → q ∈ s'.posts) :=
  updatePost_frame 5 0 updateAuthorInput sampleStore post1 (by decide)
    (by decide) (by decide)

/-- Erasing the unique post carrying an id leaves a collection in which
that id is no longer found. -/
lemma find?_eraseP_of_nodup (id : Nat) (l : List Post)
    (hnodup : (l.map Post.id).Nodup) :
    (l.eraseP (fun q => q.id == id)).find? (fun q => q.id == id) = none := by
  induction l with
  | nil => rfl
  | cons a l ih =>
      rw [List.map_cons, List.nodup_cons] at hnodup
      cases hb : (a.id == id) with
      | true =>
          rw [@List.eraseP_cons_of_pos _ a l (fun q => q.id == id) hb,
            List.find?_eq_none]
          intro q hq
          have haid : a.id = id := by simpa using hb
          have hqa : q.id ≠ a.id := by
            intro hcontra
            exact hnodup.1 (hcontra ▸ List.mem_map_of_mem Post.id hq)
          simp [haid ▸ hqa]
      | false =>
          have hb' : ¬ (a.id == id) = true := by simp [hb]
          rw [@List.eraseP_cons_of_neg _ a l (fun q => q.id == id) hb',
            @List.find?_cons_of_neg _ (fun q => q.id == id) a _ hb']
          exact ih hnodup.2

/-- Claim C7: deletePost reports exactly one deletion for an existing id,
after which the id is absent and exactly one record is gone while all
others remain; for a non-existent id it reports zero deletions and
leaves the store unchanged, raising no error. -/
theorem deletePost_count (id : Nat) (s : Store)
    (hnodup : (s.posts.map Post.id).Nodup) :
    ((∃ p ∈ s.posts, p.id = id) →
        (deletePost id s).1.deletedCount = 1 ∧
        getPostById id (deletePost id s).2 = none ∧
        (deletePost id s).2.posts.length + 1 = s.posts.length ∧
        (∀ q ∈ s.posts, q.id ≠ id → q ∈ (deletePost id s).2.posts)) ∧
    ((∀ p ∈ s.posts, p.id ≠ id) →
        (deletePost id s).1.deletedCount = 0 ∧ (deletePost id s).2 = s) := by
  constructor
  · rintro ⟨p, hp, hpid⟩
    obtain ⟨q0, hq0⟩ : ∃ q0, s.posts.find? (fun r => r.id == id) = some q0 := by
      cases hfind : s.posts.find? (fun r => r.id == id) with
      | none =>
          exfalso
          have hnp := List.find?_eq_none.mp hfind p hp
          simp [hpid] at hnp
      | some q0 => exact ⟨q0, rfl⟩
    have hdel : deletePost id s =
        (⟨1⟩, ⟨s.posts.eraseP (fun r => r.id == id), s.nextId⟩) := by
      rw [deletePost, hq0]
    rw [hdel]
    refine ⟨rfl, find?_eraseP_of_nodup id s.posts hnodup, ?_, ?_⟩
    · have hlen : (s.posts.eraseP (fun r => r.id == id)).length =
          s.posts.length - 1 :=
        List.length_eraseP_of_mem hp (by simp [hpid])
      have hpos : 0 < s.posts.length := List.length_pos_of_mem hp
      simp only [hlen]
      omega
    · intro q hq hqne
      exact (List.mem_eraseP_of_neg (by simp [hqne])).mpr hq
  · intro h
    have hq : s.posts.find? (fun r => r.id == id) = none := by
      rw [List.find?_eq_none]
      intro p hp
      simpa using h p hp
    have hdel : deletePost id s = (⟨0⟩, s) := by rw [deletePost, hq]
    rw [hdel]
    exact ⟨rfl, rfl⟩

/-- Posts with distinct ids are distinct posts: uniqueness of ids makes
the id a key for the collection. -/
lemma id_inj_of_nodup {l : List Post} (h : (l.map Post.id).Nodup)
    {a b : Post} (ha : a ∈ l) (hb : b ∈ l) (hid : a.id = b.id) : a = b := by
  by_contra hne
  have hpw : List.Pairwise (fun x y : Post => x.id ≠ y.id) l :=
    List.pairwise_map.mp h
  have hsymm : Symmetric (fun x y : Post => x.id ≠ y.id) :=
    fun x y hxy he => hxy he.symm
  exact hpw.forall hsymm ha hb hne hid

/-- The rewriting function used by updatePost preserves both the id and
the creation timestamp of every post. -/
lemma updateMap_preserves (now : Nat) (u : UpdateInput) (id : Nat) (q : Post) :
    (if q.id == id then applyUpdate now u q else q).id = q.id ∧
    (if q.id == id then applyUpdate now u q else q).createdAt = q.createdAt := by
  by_cases hq : (q.id == id) = true
  · rw [if_pos hq]
    exact ⟨rfl, rfl⟩
  · rw [if_neg hq]
    exact ⟨rfl, rfl⟩

/-- The two possible outcomes of createPost at the store level: the
store is unchanged (validation failure) or the fresh post is appended
and the id counter advances. -/
lemma createPostStore_cases (now : Nat) (input : PostInput) (s : Store) :
    createPostStore now input s = s ∨
    ∃ t, input.title = some t ∧ t ≠ "" ∧
      createPostStore now input s =
        ⟨s.posts ++ [freshPost now input s t], s.nextId + 1⟩ := by
  cases ht : input.title with
  | none =>
      left
      simp [createPostStore, createPost, ht]
  | some t =>
      by_cases he : t = ""
      · left
        simp [createPostStore, createPost, ht, he]
      · right
        exact ⟨t, rfl, he, by simp [createPostStore, createPost, ht, he]⟩

/-- The two possible outcomes of updatePost at the store level: the
store is unchanged (validation failure or id not found) or the matching
post is rewritten in place with a valid title update. -/
lemma updatePostStore_cases (now id : Nat) (u : UpdateInput) (s : Store) :
    updatePostStore now id u s = s ∨
    (u.title ≠ some "" ∧
      updatePostStore now id u s =
        ⟨s.posts.map (fun q => if q.id == id then applyUpdate now u q else q),
         s.nextId⟩) := by
  by_cases hv : u.title = some ""
  · left
    simp [updatePostStore, updatePost, hv]
  · cases hf : s.posts.find? (fun q => q.id == id) with
    | none =>
        left
        simp [updatePostStore, updatePost, hv, hf]
    | some p =>
        right
        exact ⟨hv, by simp [updatePostStore, updatePost, hv, hf]⟩

/-- The two possible outcomes of deletePost at the store level: the
store is unchanged or the first (and with unique ids, only) matching
post is erased. -/
lemma deletePostStore_cases (id : Nat) (s : Store) :
    (deletePost id s).2 = s ∨
    (deletePost id s).2 =
      ⟨s.posts.eraseP (fun q => q.id == id), s.nextId⟩ := by
  cases hf : s.posts.find? (fun q => q.id == id) with
  | none =>
      left
      simp [deletePost, hf]
  | some p =>
      right
      simp [deletePost, hf]

/-- createPost preserves the store invariants when the clock is ahead
of every stored timestamp. -/
lemma wf_createPostStore (now : Nat) (input : PostInput) (s : Store)
    (hwf : WF s) (_hclock : ∀ q ∈ s.posts, q.updatedAt ≤ now) :
    WF (createPostStore now input s) := by
  rcases createPostStore_cases now input s with h | ⟨t, _ht, hne, h⟩
  · rw [h]
    exact hwf
  · rw [h]
    obtain ⟨hnd, hlt, htitle, hts⟩ := hwf
    refine ⟨?_, ?_, ?_, ?_⟩
    · rw [List.map_append, List.nodup_append]
      refine ⟨hnd, List.nodup_singleton _, ?_⟩
      intro x hx hx2
      have hx' : x = s.nextId := by simpa [freshPost] using hx2
      obtain ⟨p, hp, hpx⟩ := List.mem_map.mp hx
      have := hlt p hp
      omega
    · intro p hp
      rcases List.mem_append.mp hp with h1 | h2
      · exact Nat.lt_succ_of_lt (hlt p h1)
      · have hp' : p = freshPost now input s t := by simpa using h2
        rw [hp']
        exact Nat.lt_succ_self _
    · intro p hp
      rcases List.mem_append.mp hp with h1 | h2
      · exact htitle p h1
      · have hp' : p = freshPost now input s t := by simpa using h2
        rw [hp']
        exact hne
    · intro p hp
      rcases List.mem_append.mp hp with h1 | h2
      · exact hts p h1
      · have hp' : p = freshPost now input s t := by simpa using h2
        rw [hp']
        exact Nat.le_refl now

/-- updatePost preserves the store invariants when the clock is ahead
of every stored timestamp. -/
lemma wf_updatePostStore (now id : Nat) (u : UpdateInput) (s : Store)
    (hwf : WF s) (hclock : ∀ q ∈ s.posts, q.updatedAt ≤ now) :
    WF (updatePostStore now id u s) := by
  rcases updatePostStore_cases now id u s with h | ⟨hv, h⟩
  · rw [h]
    exact hwf
  · rw [h]
    obtain ⟨hnd, hlt, htitle, hts⟩ := hwf
    refine ⟨?_, ?_, ?_, ?_⟩
    · rw [List.map_map]
      have hcongr : s.posts.map
          (Post.id ∘ fun q => if q.id == id then applyUpdate now u q else q) =
          s.posts.map Post.id :=
        List.map_congr_left (fun q _ => (updateMap_preserves now u id q).1)
      rw [hcongr]
      exact hnd
    · intro p hp
      obtain ⟨q, hq, hfq⟩ := List.mem_map.mp hp
      rw [← hfq, (updateMap_preserves now u id q).1]
      exact hlt q hq
    · intro p hp
      obtain ⟨q, hq, hfq⟩ := List.mem_map.mp hp
      rw [← hfq]
      by_cases hqid : (q.id == id) = true
      · rw [if_pos hqid]
        cases hu : u.title with
        | none =>
            have : (applyUpdate now u q).title = q.title := by
              simp [applyUpdate, hu]
            rw [this]
            exact htitle q hq
        | some x =>
            have hx : (applyUpdate now u q).title = x := by
              simp [applyUpdate, hu]
            rw [hx]
            intro hempty
            exact hv (by rw [hu, hempty])
      · rw [if_neg hqid]
        exact htitle q hq
    · intro p hp
      obtain ⟨q, hq, hfq⟩ := List.mem_map.mp hp
      rw [← hfq]
      by_cases hqid : (q.id == id) = true
      · rw [if_pos hqid]
        have h1 : (applyUpdate now u q).createdAt = q.createdAt := rfl
        have h2 : (applyUpdate now u q).updatedAt = now := rfl
        rw [h1, h2]
        exact Nat.le_trans (hts q hq) (hclock q hq)
      · rw [if_neg hqid]
        exact hts q hq

/-- deletePost preserves the store invariants. -/
lemma wf_deletePostStore (id : Nat) (s : Store) (hwf : WF s) :
    WF (deletePost id s).2 := by
  rcases deletePostStore_cases id s with h | h
  · rw [h]
    exact hwf
  · rw [h]
    obtain ⟨hnd, hlt, htitle, hts⟩ := hwf
    have hsub : (s.posts.eraseP (fun q => q.id == id)).Sublist s.posts :=
      List.eraseP_sublist s.posts
    refine ⟨?_, ?_, ?_, ?_⟩
    · exact List.Nodup.sublist (hsub.map Post.id) hnd
    · intro p hp
      exact hlt p (hsub.subset hp)
    · intro p hp
      exact htitle p (hsub.subset hp)
    · intro p hp
      exact hts p (hsub.subset hp)

/-- Claim C8: every store state reachable through the service operations
satisfies the data invariants — unique ids bounded by the never-reused
id counter, non-empty titles, `updatedAt ≥ createdAt` — and every
further operation keeps the counter monotone and never changes the
`createdAt` of a surviving post. -/
theorem reachable_invariants (s : Store) (h : Reachable s) :
    WF s ∧ ∀ s', Step s s' →
      s.nextId ≤ s'.nextId ∧
      ∀ p' ∈ s'.posts, ∀ p ∈ s.posts, p'.id = p.id →
        p'.createdAt = p.createdAt := by
  have hwf : WF s := by
    induction h with
    | init =>
        exact ⟨List.nodup_nil, fun p hp => absurd hp (List.not_mem_nil p),
          fun p hp => absurd hp (List.not_mem_nil p),
          fun p hp => absurd hp (List.not_mem_nil p)⟩
    | step hr hstep ih =>
        cases hstep with
        | create => exact wf_createPostStore _ _ _ ih (by assumption)
        | update => exact wf_updatePostStore _ _ _ _ ih (by assumption)
        | del => exact wf_deletePostStore _ _ ih
  refine ⟨hwf, ?_⟩
  intro s' hstep
  obtain ⟨hnd, hlt, _htitle, _hts⟩ := hwf
  cases hstep with
  | create now input hclock =>
      rcases createPostStore_cases now input s with hc | ⟨t, _ht, _hne, hc⟩
      · rw [hc]
        exact ⟨Nat.le_refl _, fun p' hp' p hp hid =>
          congrArg Post.createdAt (id_inj_of_nodup hnd hp' hp hid)⟩
      · rw [hc]
        refine ⟨Nat.le_succ _, ?_⟩
        intro p' hp' p hp hid
        rcases List.mem_append.mp hp' with h1 | h2
        · exact congrArg Post.createdAt (id_inj_of_nodup hnd h1 hp hid)
        · exfalso
          have hp'' : p' = freshPost now input s t := by simpa using h2
          have hplt := hlt p hp
          rw [hp''] at hid
          simp [freshPost] at hid
          omega
  | update now id u hclock =>
      rcases updatePostStore_cases now id u s with hc | ⟨_hv, hc⟩
      · rw [hc]
        exact ⟨Nat.le_refl _, fun p' hp' p hp hid =>
          congrArg Post.createdAt (id_inj_of_nodup hnd hp' hp hid)⟩
      · rw [hc]
        refine ⟨Nat.le_refl _, ?_⟩
        intro p' hp' p hp hid
        obtain ⟨q, hq, hfq⟩ := List.mem_map.mp hp'
        have hqid : q.id = p'.id := by
          rw [← hfq]
          exact ((updateMap_preserves now u id q).1).symm
        have hqp : q = p := id_inj_of_nodup hnd hq hp (hqid.symm ▸ hid)
        have hqc : p'.createdAt = q.createdAt := by
          rw [← hfq]
          exact (updateMap_preserves now u id q).2
        rw [hqc, hqp]
  | del id =>
      rcases deletePostStore_cases id s with hc | hc <;> rw [hc]
      · exact ⟨Nat.le_refl _, fun p' hp' p hp hid =>
          congrArg Post.createdAt (id_inj_of_nodup hnd hp' hp hid)⟩
      · refine ⟨Nat.le_refl _, ?_⟩
        intro p' hp' p hp hid
        have hp'mem : p' ∈ s.posts :=
          (List.eraseP_sublist s.posts).subset hp'
        exact congrArg Post.createdAt (id_inj_of_nodup hnd hp'mem hp hid)

/-- Witness for C8: the invariants hold of the store obtained by one
successful creation from the empty store. -/
theorem reachable_invariants_witness :
    WF (createPostStore 5 inputMinimal emptyStore) :=
  (reachable_invariants (createPostStore 5 inputMinimal emptyStore)
    (Reachable.step Reachable.init
      (Step.create 5 inputMinimal emptyStore
        (fun q hq => absurd hq (List.not_mem_nil q))))).1

/-- Witness for C7: deleting id 0 from the sample store. -/
theorem deletePost_count_witness :
    ((∃ p ∈ sampleStore.posts, p.id = 0) →
        (deletePost 0 sampleStore).1.deletedCount = 1 ∧
        getPostById 0 (deletePost 0 sampleStore).2 = none ∧
        (deletePost 0 sampleStore).2.posts.length + 1 =
          sampleStore.posts.length ∧
        (∀ q ∈ sampleStore.posts, q.id ≠ 0 →
          q ∈ (deletePost 0 sampleStore).2.posts)) ∧
    ((∀ p ∈ sampleStore.posts, p.id ≠ 0) →
        (deletePost 0 sampleStore).1.deletedCount = 0 ∧
        (deletePost 0 sampleStore).2 = sampleStore) :=
  deletePost_count 0 sampleStore (by decide)

end PostService

namespace GraphQLApi

/-- Claim C10: the GET_POSTS query selects `author` as a structured
object exposing a `username` subfield rather than a plain text value,
alongside the scalar fields id, title, contents, tags, updatedAt and
createdAt. -/
theorem getPosts_author_structured :
    GET_POSTS.operationName = "getPosts" ∧
    GET_POSTS.rootField = "posts" ∧
    (∃ f ∈ GET_POSTS.selection, f.name = "author" ∧
      f.subfields = ["username"]) ∧
    (∀ f ∈ GET_POSTS.selection, f.name = "author" →
      f.subfields = ["username"]) ∧
    (∀ n ∈ ["id", "title", "contents", "tags", "updatedAt", "createdAt"],
      ∃ f ∈ GET_POSTS.selection, f.name = n ∧ f.subfields = []) := by
  decide

end GraphQLApi
